import Mathlib

set_option maxRecDepth 8000

/-!
Shallow embedding of the answer-scoring engine of `evaluate.py`
(`normalize_text`, `split_into_chunks`, `score_single_answer`,
`score_enumerated_answers`, `is_enumerated_answer`, `evaluate_answer`).

Strings are modelled as `String` over `List Char`; the regular expressions of
`normalize_text` act character-wise, so they are modelled by character-wise
list transformations.  Python `float` arithmetic on scores is modelled by `ℚ`
(every score produced by the code is an exact small rational), and a raised
`ZeroDivisionError` is modelled by `none : Option ℚ`.  The external
`Levenshtein.distance` C library—an external pip dependency of the repository,
not code of the repository—computes the standard unit-cost edit distance; it
is modelled by Mathlib's `levenshtein` with `Levenshtein.defaultCost`.
Whitespace (`\s`, `str.split`, `str.strip`) and `str.lower` are modelled on
the ASCII range, the fragment exercised by the scoring engine.
-/

/-- The ASCII whitespace characters matched by the regex class `\s` and by
Python's `str.split()` / `str.strip()`. -/
def isWS (c : Char) : Bool :=
  c = ' ' || c = '\t' || c = '\n' || c = '\r' || c = '\x0b' || c = '\x0c'

/-- The punctuation characters folded to a space by `normalize_text`
(the regex character class at lines 19 and 22 of `evaluate.py`): the comma
belongs to the class exactly when `remove_comma` is true. -/
def isPunct (rc : Bool) (c : Char) : Bool :=
  c = '.' || c = ';' || c = ':' || c = '*' || c = '"' || c = '-' || (rc && c = ',')

/-- `re.sub(r"[\.,;:*\"\-]", " ", text)` (resp. without the comma): every
character of the class is replaced by a single space. -/
def foldPunct (rc : Bool) (l : List Char) : List Char :=
  l.map fun c => if isPunct rc c then ' ' else c

/-- Helper for `collapseWS`: the flag records whether the previous character
belonged to a whitespace run whose single replacement space was already
emitted. -/
def collapseAux : Bool → List Char → List Char
  | _, [] => []
  | b, c :: r =>
    if isWS c then
      if b then collapseAux true r else ' ' :: collapseAux true r
    else c :: collapseAux false r

/-- `re.sub(r"\s+", " ", text)`: each maximal whitespace run becomes one
space. -/
def collapseWS (l : List Char) : List Char :=
  collapseAux false l

/-- Drop leading whitespace (the left half of `str.strip()`). -/
def lstrip (l : List Char) : List Char :=
  l.dropWhile fun c => isWS c

/-- Drop trailing whitespace (the right half of `str.strip()`). -/
def rstrip (l : List Char) : List Char :=
  (l.reverse.dropWhile fun c => isWS c).reverse

/-- Python `str.strip()` on ASCII whitespace. -/
def strip (l : List Char) : List Char :=
  rstrip (lstrip l)

/-- Split at every whitespace character, keeping empty pieces (helper for
`splitWS`). -/
def splitOnWS : List Char → List (List Char)
  | [] => [[]]
  | c :: r =>
    if isWS c then [] :: splitOnWS r
    else
      match splitOnWS r with
      | [] => [[c]]
      | w :: ws => (c :: w) :: ws

/-- Python `str.split()` with no argument: the maximal whitespace-free runs,
in order, with empty pieces discarded. -/
def splitWS (l : List Char) : List (List Char) :=
  (splitOnWS l).filter fun w => !w.isEmpty

/-- Python `" ".join(words)`. -/
def joinT : List (List Char) → List Char
  | [] => []
  | [w] => w
  | w :: v :: ws => w ++ ' ' :: joinT (v :: ws)

/-- Minimum of a list of naturals, as computed by the
`if dist < min_dist: min_dist = dist` loop of `score_single_answer` starting
from `float('inf')`; the loop is only entered on a non-empty list, where this
is the genuine minimum. -/
def listMin : List Nat → Nat
  | [] => 0
  | x :: xs => xs.foldl min x

/-- The external `Levenshtein.distance`: standard unit-cost character-level
edit distance. -/
def lev (a b : List Char) : Nat :=
  levenshtein Levenshtein.defaultCost a b

/-- `normalize_text` of `evaluate.py` on the character list: fold punctuation
to spaces, collapse whitespace runs, strip the ends, lowercase. -/
def normList (l : List Char) (rc : Bool) : List Char :=
  (strip (collapseWS (foldPunct rc l))).map Char.toLower

/-- `normalize_text(text, remove_comma)` of `evaluate.py` (lines 9-28). -/
def normalize_text (text : String) (remove_comma : Bool) : String :=
  String.mk (normList text.data remove_comma)

/-- `split_into_chunks(text, chunk_size)` of `evaluate.py` (lines 30-39):
`range(len(words) - chunk_size + 1)` truncates at zero exactly as the natural
subtraction `words.length + 1 - chunk_size` does. -/
def split_into_chunks (text : String) (chunk_size : Nat) : List String :=
  let words := splitWS text.data
  (List.range (words.length + 1 - chunk_size)).map
    fun i => String.mk (joinT ((words.drop i).take chunk_size))

/-- `score_single_answer(correct_answer, user_answer)` of `evaluate.py`
(lines 41-62).  When no chunk exists the code returns the raw distance; when
chunks exist it divides by `max_dist = len(correct_answer)`, raising
`ZeroDivisionError` (modelled by `none`) if that length is zero. -/
def score_single_answer (correct_answer user_answer : String) : Option ℚ :=
  let correct_words := splitWS correct_answer.data
  let chunk_size := correct_words.length
  let user_chunks := split_into_chunks user_answer chunk_size
  if user_chunks.isEmpty then
    some ((lev correct_answer.data user_answer.data : Nat) : ℚ)
  else
    let min_dist := listMin (user_chunks.map fun chunk => lev correct_answer.data chunk.data)
    let max_dist := correct_answer.length
    if max_dist = 0 then none
    else some (1 - ((min min_dist max_dist : Nat) : ℚ) / (max_dist : ℚ))

/-- `score_enumerated_answers(correct_answers, user_answer)` of `evaluate.py`
(lines 64-76): `0.0` on the empty list, otherwise the running total of the
single scores divided by the number of items; a raise inside the loop
propagates. -/
def score_enumerated_answers (correct_answers : List String) (user_answer : String) :
    Option ℚ :=
  if correct_answers.isEmpty then some 0
  else
    (correct_answers.foldlM
        (fun acc ans => (score_single_answer ans user_answer).map fun d => acc + d)
        (0 : ℚ)).map
      fun total => total / (correct_answers.length : ℚ)

/-- `is_enumerated_answer(answer_mention)` of `evaluate.py` (lines 78-82):
a literal comma in the raw mention. -/
def is_enumerated_answer (answer_mention : String) : Bool :=
  answer_mention.data.contains ','

/-- `evaluate_answer(correct_mention, user_answer)` of `evaluate.py`
(lines 84-103). -/
def evaluate_answer (correct_mention user_answer : String) : Option ℚ :=
  if is_enumerated_answer correct_mention then
    let mention_normalized := normalize_text correct_mention false
    let correct_items :=
      ((((mention_normalized.data.splitOn ',').map strip).filter
          fun w => !w.isEmpty).map String.mk)
    let user_answer_normalized := normalize_text user_answer true
    score_enumerated_answers correct_items user_answer_normalized
  else
    let correct_answer := normalize_text correct_mention true
    let user_answer_normalized := normalize_text user_answer true
    score_single_answer correct_answer user_answer_normalized

/-- Specification-side restatement of normalization (spec §4.1): replace each
punctuation-class character by a space, lowercase, and rebuild the text as
the whitespace-delimited tokens joined by single spaces—which collapses every
whitespace run and trims the ends. -/
def normSpec (l : List Char) (rc : Bool) : List Char :=
  joinT ((splitWS (foldPunct rc l)).map (List.map Char.toLower))

/-! ### Character-level facts -/

theorem char_toNat_inj {c d : Char} (h : c.toNat = d.toNat) : c = d :=
  Char.ext (UInt32.ext h)

theorem char_eq_of_toNat_eq {c : Char} {n : Nat} (d : Char) (h : c.toNat = n)
    (hd : d.toNat = n) : c = d :=
  char_toNat_inj (by rw [h, hd])

theorem toLower_of_upper {c : Char} (h1 : 65 ≤ c.toNat) (h2 : c.toNat ≤ 90) :
    (Char.toLower c).toNat = c.toNat + 32 := by
  show ((if c.toNat ≥ 65 ∧ c.toNat ≤ 90 then Char.ofNat (c.toNat + 32) else c)).toNat = _
  rw [if_pos ⟨h1, h2⟩]
  have hv : Nat.isValidChar (c.toNat + 32) := Or.inl (by omega)
  simp only [Char.ofNat]
  rw [dif_pos hv]
  rfl

theorem toLower_of_not_upper {c : Char} (h : ¬(65 ≤ c.toNat ∧ c.toNat ≤ 90)) :
    Char.toLower c = c := by
  show (if c.toNat ≥ 65 ∧ c.toNat ≤ 90 then Char.ofNat (c.toNat + 32) else c) = c
  exact if_neg h

theorem toLower_toLower (c : Char) : Char.toLower (Char.toLower c) = Char.toLower c := by
  by_cases h : 65 ≤ c.toNat ∧ c.toNat ≤ 90
  · have h1 := toLower_of_upper h.1 h.2
    apply toLower_of_not_upper
    omega
  · simp only [toLower_of_not_upper h]

theorem isWS_iff {c : Char} :
    isWS c = true ↔
      (c.toNat = 32 ∨ c.toNat = 9 ∨ c.toNat = 10 ∨ c.toNat = 13 ∨
        c.toNat = 11 ∨ c.toNat = 12) := by
  simp only [isWS, Bool.or_eq_true, decide_eq_true_eq]
  constructor
  · rintro (((((rfl | rfl) | rfl) | rfl) | rfl) | rfl)
    · exact Or.inl rfl
    · exact Or.inr (Or.inl rfl)
    · exact Or.inr (Or.inr (Or.inl rfl))
    · exact Or.inr (Or.inr (Or.inr (Or.inl rfl)))
    · exact Or.inr (Or.inr (Or.inr (Or.inr (Or.inl rfl))))
    · exact Or.inr (Or.inr (Or.inr (Or.inr (Or.inr rfl))))
  · rintro (h | h | h | h | h | h)
    · exact Or.inl (Or.inl (Or.inl (Or.inl (Or.inl (char_eq_of_toNat_eq ' ' h rfl)))))
    · exact Or.inl (Or.inl (Or.inl (Or.inl (Or.inr (char_eq_of_toNat_eq '\t' h rfl)))))
    · exact Or.inl (Or.inl (Or.inl (Or.inr (char_eq_of_toNat_eq '\n' h rfl))))
    · exact Or.inl (Or.inl (Or.inr (char_eq_of_toNat_eq '\r' h rfl)))
    · exact Or.inl (Or.inr (char_eq_of_toNat_eq '\x0b' h rfl))
    · exact Or.inr (char_eq_of_toNat_eq '\x0c' h rfl)

theorem isPunct_iff {rc : Bool} {c : Char} :
    isPunct rc c = true ↔
      (c.toNat = 46 ∨ c.toNat = 59 ∨ c.toNat = 58 ∨ c.toNat = 42 ∨
        c.toNat = 34 ∨ c.toNat = 45 ∨ (rc = true ∧ c.toNat = 44)) := by
  simp only [isPunct, Bool.or_eq_true, Bool.and_eq_true, decide_eq_true_eq]
  constructor
  · rintro ((((((rfl | rfl) | rfl) | rfl) | rfl) | rfl) | ⟨hrc, rfl⟩)
    · exact Or.inl rfl
    · exact Or.inr (Or.inl rfl)
    · exact Or.inr (Or.inr (Or.inl rfl))
    · exact Or.inr (Or.inr (Or.inr (Or.inl rfl)))
    · exact Or.inr (Or.inr (Or.inr (Or.inr (Or.inl rfl))))
    · exact Or.inr (Or.inr (Or.inr (Or.inr (Or.inr (Or.inl rfl)))))
    · exact Or.inr (Or.inr (Or.inr (Or.inr (Or.inr (Or.inr ⟨hrc, rfl⟩)))))
  · rintro (h | h | h | h | h | h | ⟨hrc, h⟩)
    · exact Or.inl (Or.inl (Or.inl (Or.inl (Or.inl (Or.inl (char_eq_of_toNat_eq '.' h rfl))))))
    · exact Or.inl (Or.inl (Or.inl (Or.inl (Or.inl (Or.inr (char_eq_of_toNat_eq ';' h rfl))))))
    · exact Or.inl (Or.inl (Or.inl (Or.inl (Or.inr (char_eq_of_toNat_eq ':' h rfl)))))
    · exact Or.inl (Or.inl (Or.inl (Or.inr (char_eq_of_toNat_eq '*' h rfl))))
    · exact Or.inl (Or.inl (Or.inr (char_eq_of_toNat_eq '\"' h rfl)))
    · exact Or.inl (Or.inr (char_eq_of_toNat_eq '-' h rfl))
    · exact Or.inr ⟨hrc, char_eq_of_toNat_eq ',' h rfl⟩

theorem isWS_toLower (c : Char) : isWS (Char.toLower c) = isWS c := by
  by_cases h : 65 ≤ c.toNat ∧ c.toNat ≤ 90
  · have h1 := toLower_of_upper h.1 h.2
    have hA : ¬ (isWS (Char.toLower c) = true) := by rw [isWS_iff]; omega
    have hB : ¬ (isWS c = true) := by rw [isWS_iff]; omega
    simp only [Bool.not_eq_true] at hA hB
    rw [hA, hB]
  · rw [toLower_of_not_upper h]

theorem isPunct_toLower (rc : Bool) (c : Char) :
    isPunct rc (Char.toLower c) = isPunct rc c := by
  by_cases h : 65 ≤ c.toNat ∧ c.toNat ≤ 90
  · have h1 := toLower_of_upper h.1 h.2
    have hA : ¬ (isPunct rc (Char.toLower c) = true) := by rw [isPunct_iff]; omega
    have hB : ¬ (isPunct rc c = true) := by rw [isPunct_iff]; omega
    simp only [Bool.not_eq_true] at hA hB
    rw [hA, hB]
  · rw [toLower_of_not_upper h]

theorem toLower_eq_comma_iff {c : Char} : Char.toLower c = ',' ↔ c = ',' := by
  constructor
  · intro h
    by_cases hu : 65 ≤ c.toNat ∧ c.toNat ≤ 90
    · have h1 := toLower_of_upper hu.1 hu.2
      have h2 : (Char.toLower c).toNat = (',').toNat := by rw [h]
      have h3 : (',').toNat = 44 := rfl
      exfalso
      omega
    · rwa [toLower_of_not_upper hu] at h
  · rintro rfl
    decide

/-! ### Collapsing, splitting and stripping: structural equations -/

theorem len_dropWhile_le (p : Char → Bool) (l : List Char) :
    (l.dropWhile p).length ≤ l.length := by
  induction l with
  | nil => simp
  | cons c r ih =>
    rw [List.dropWhile_cons]
    split
    · exact Nat.le_trans ih (Nat.le_succ _)
    · exact Nat.le_refl _

theorem head_dropWhile_false {α : Type} (p : α → Bool) {l : List α} {d : α} {r : List α}
    (h : l.dropWhile p = d :: r) : p d = false := by
  induction l with
  | nil => simp at h
  | cons c t ih =>
    rw [List.dropWhile_cons] at h
    split at h
    · exact ih h
    · cases h
      simp_all

theorem takeWhile_all {p : Char → Bool} {l : List Char} (h : ∀ c ∈ l, p c = true) :
    l.takeWhile p = l := by
  induction l with
  | nil => rfl
  | cons c t ih =>
    rw [List.takeWhile_cons, if_pos (h c (by simp))]
    rw [ih fun d hd => h d (by simp [hd])]

theorem dropWhile_all {p : Char → Bool} {l : List Char} (h : ∀ c ∈ l, p c = true) :
    l.dropWhile p = [] := by
  induction l with
  | nil => rfl
  | cons c t ih =>
    rw [List.dropWhile_cons, if_pos (h c (by simp))]
    exact ih fun d hd => h d (by simp [hd])

theorem collapseAux_true_eq (r : List Char) :
    collapseAux true r = collapseAux false (r.dropWhile fun c => isWS c) := by
  induction r with
  | nil => rfl
  | cons c r ih =>
    by_cases h : isWS c = true
    · rw [List.dropWhile_cons, if_pos h]
      simp only [collapseAux, h, if_true]
      exact ih
    · rw [List.dropWhile_cons, if_neg h]
      simp only [collapseAux, h, if_false]
      rfl

theorem collapseWS_cons_ws {c : Char} (r : List Char) (h : isWS c = true) :
    collapseWS (c :: r) = ' ' :: collapseWS (r.dropWhile fun c => isWS c) := by
  show collapseAux false (c :: r) = _
  simp only [collapseAux, h, if_true, if_false]
  rw [collapseAux_true_eq]
  rfl

theorem collapseWS_cons_neg {c : Char} (r : List Char) (h : ¬ isWS c = true) :
    collapseWS (c :: r) = c :: collapseWS r := by
  show collapseAux false (c :: r) = _
  simp only [collapseAux, h, if_false]
  rfl

theorem collapseWS_append_neg {t : List Char} (d : List Char)
    (h : ∀ c ∈ t, ¬ isWS c = true) :
    collapseWS (t ++ d) = t ++ collapseWS d := by
  induction t with
  | nil => rfl
  | cons c t ih =>
    rw [List.cons_append, collapseWS_cons_neg _ (h c (by simp)),
      ih fun x hx => h x (by simp [hx])]
    rfl

theorem splitOnWS_ne_nil (l : List Char) : splitOnWS l ≠ [] := by
  cases l with
  | nil => simp [splitOnWS]
  | cons c r =>
    simp only [splitOnWS]
    split
    · simp
    · rcases hsp : splitOnWS r with _ | ⟨w, ws⟩ <;> simp

theorem splitOnWS_eq (z : List Char) :
    splitOnWS z = (z.takeWhile fun c => !isWS c) ::
      (match z.dropWhile (fun c => !isWS c) with
       | [] => []
       | _ :: r => splitOnWS r) := by
  induction z with
  | nil => rfl
  | cons c r ih =>
    by_cases h : isWS c = true
    · simp only [splitOnWS, h, if_true, List.takeWhile_cons, List.dropWhile_cons,
        Bool.not_true, Bool.false_eq_true, if_false]
    · simp only [splitOnWS, h, if_false, List.takeWhile_cons, List.dropWhile_cons]
      rw [ih]
      simp [Bool.not_eq_true] at h
      simp [h]

theorem splitWS_nil : splitWS [] = [] := rfl

theorem splitWS_cons_ws {c : Char} (r : List Char) (h : isWS c = true) :
    splitWS (c :: r) = splitWS r := by
  show ((splitOnWS (c :: r)).filter fun w => !w.isEmpty) = _
  simp only [splitOnWS, h, if_true]
  rw [List.filter_cons]
  simp
  rfl

theorem splitWS_cons_neg {c : Char} (r : List Char) (h : ¬ isWS c = true) :
    splitWS (c :: r) =
      (c :: r.takeWhile fun d => !isWS d) :: splitWS (r.dropWhile fun d => !isWS d) := by
  show ((splitOnWS (c :: r)).filter fun w => !w.isEmpty) = _
  rw [splitOnWS_eq (c :: r)]
  rw [List.takeWhile_cons, List.dropWhile_cons]
  have hb : (!isWS c) = true := by simp [Bool.not_eq_true] at h; simp [h]
  rw [if_pos hb, if_pos hb]
  rw [List.filter_cons]
  simp only [List.isEmpty_cons, Bool.not_false, if_true]
  congr 1
  rcases hd : r.dropWhile (fun d => !isWS d) with _ | ⟨e, r2⟩
  · rfl
  · have he : isWS e = true := by
      have := head_dropWhile_false (fun d => !isWS d) hd
      simpa using this
    rw [splitWS_cons_ws r2 he]
    rfl

/-! ### Stripping lemmas -/

theorem lstrip_cons_ws {c : Char} (r : List Char) (h : isWS c = true) :
    lstrip (c :: r) = lstrip r := by
  show (c :: r).dropWhile (fun c => isWS c) = _
  rw [List.dropWhile_cons, if_pos h]
  rfl

theorem lstrip_cons_neg {c : Char} (r : List Char) (h : ¬ isWS c = true) :
    lstrip (c :: r) = c :: r := by
  show (c :: r).dropWhile (fun c => isWS c) = _
  rw [List.dropWhile_cons, if_neg h]

theorem rstrip_cons_neg {c : Char} (w : List Char) (h : ¬ isWS c = true) :
    rstrip (c :: w) = c :: rstrip w := by
  show ((c :: w).reverse.dropWhile (fun c => isWS c)).reverse = _
  rw [List.reverse_cons, List.dropWhile_append]
  split
  · rename_i he
    rw [List.isEmpty_iff] at he
    show ([c].dropWhile fun c => isWS c).reverse = _
    rw [List.dropWhile_cons, if_neg h]
    show [c] = c :: rstrip w
    have : rstrip w = [] := by
      show (w.reverse.dropWhile fun c => isWS c).reverse = []
      rw [he]
      rfl
    rw [this]
  · rw [List.reverse_append, List.reverse_cons]
    rfl

theorem rstrip_append_ws {c : Char} (w : List Char) (h : isWS c = true) :
    rstrip (w ++ [c]) = rstrip w := by
  show ((w ++ [c]).reverse.dropWhile (fun c => isWS c)).reverse = _
  rw [List.reverse_append]
  show (((c :: []) ++ w.reverse).dropWhile fun c => isWS c).reverse = _
  rw [List.cons_append, List.nil_append, List.dropWhile_cons, if_pos h]
  rfl

theorem rstrip_all_neg {w : List Char} (h : ∀ c ∈ w, ¬ isWS c = true) :
    rstrip w = w := by
  show (w.reverse.dropWhile (fun c => isWS c)).reverse = w
  rcases hw : w.reverse with _ | ⟨d, t⟩
  · have : w = [] := by simpa using congrArg List.reverse hw
    rw [this]
    rfl
  · have hd : d ∈ w := by
      have : d ∈ w.reverse := by rw [hw]; simp
      simpa using this
    rw [List.dropWhile_cons, if_neg (h d hd), ← hw, List.reverse_reverse]

theorem rstrip_append_of_ne (u : List Char) {v : List Char} (h : rstrip v ≠ []) :
    rstrip (u ++ v) = u ++ rstrip v := by
  show ((u ++ v).reverse.dropWhile (fun c => isWS c)).reverse = _
  rw [List.reverse_append, List.dropWhile_append]
  have hne : ¬ (v.reverse.dropWhile fun c => isWS c).isEmpty = true := by
    rw [List.isEmpty_iff]
    intro he
    apply h
    show (v.reverse.dropWhile fun c => isWS c).reverse = []
    rw [he]
    rfl
  rw [if_neg hne, List.reverse_append, List.reverse_reverse]
  rfl

theorem strip_cons_ws {c : Char} (l : List Char) (h : isWS c = true) :
    strip (c :: l) = strip l := by
  show rstrip (lstrip (c :: l)) = _
  rw [lstrip_cons_ws l h]
  rfl

theorem strip_cons_neg {c : Char} (l : List Char) (h : ¬ isWS c = true) :
    strip (c :: l) = c :: rstrip l := by
  show rstrip (lstrip (c :: l)) = _
  rw [lstrip_cons_neg l h, rstrip_cons_neg l h]

/-! ### Joining -/

theorem joinT_nil : joinT [] = [] := rfl

theorem joinT_single (w : List Char) : joinT [w] = w := rfl

theorem joinT_cons_of_ne (w : List Char) (ws : List (List Char)) (h : ws ≠ []) :
    joinT (w :: ws) = w ++ ' ' :: joinT ws := by
  rcases ws with _ | ⟨v, ws⟩
  · exact absurd rfl h
  · rfl

/-! ### Collapse-then-strip equals split-then-join -/

theorem splitWS_dropWhile_ws (r : List Char) :
    splitWS (r.dropWhile fun c => isWS c) = splitWS r := by
  induction r with
  | nil => rfl
  | cons c r ih =>
    by_cases h : isWS c = true
    · rw [List.dropWhile_cons, if_pos h, ih, splitWS_cons_ws r h]
    · rw [List.dropWhile_cons, if_neg h]

theorem strip_collapse_aux :
    ∀ n (z : List Char), z.length ≤ n → strip (collapseWS z) = joinT (splitWS z) := by
  intro n
  induction n with
  | zero =>
    intro z hz
    have hz0 : z = [] := by cases z <;> simp_all
    subst hz0
    rfl
  | succ n ih =>
    intro z hz
    match z with
    | [] => rfl
    | c :: r =>
      have hr_len : r.length ≤ n := by
        have : r.length + 1 ≤ n + 1 := by simpa using hz
        omega
      by_cases h : isWS c = true
      · rw [collapseWS_cons_ws r h, splitWS_cons_ws r h, strip_cons_ws _ (by decide)]
        rw [ih (r.dropWhile fun c => isWS c)
          (Nat.le_trans (len_dropWhile_le _ r) hr_len)]
        rw [splitWS_dropWhile_ws r]
      · rw [splitWS_cons_neg r h, collapseWS_cons_neg r h, strip_cons_neg _ h]
        have hr : (r.takeWhile fun d => !isWS d) ++ (r.dropWhile fun d => !isWS d) = r :=
          List.takeWhile_append_dropWhile _ r
        have ht : ∀ x ∈ (r.takeWhile fun d => !isWS d), ¬ isWS x = true := by
          intro x hx
          have := List.mem_takeWhile_imp hx
          simpa using this
        have hcol : collapseWS r = (r.takeWhile fun d => !isWS d) ++
            collapseWS (r.dropWhile fun d => !isWS d) := by
          conv_lhs => rw [← hr]
          exact collapseWS_append_neg _ ht
        rw [hcol]
        rcases hd : r.dropWhile (fun d => !isWS d) with _ | ⟨e, d2⟩
        · rw [show collapseWS [] = [] from rfl, List.append_nil, rstrip_all_neg ht,
            show splitWS ([] : List Char) = [] from rfl, joinT_single]
        · have he : isWS e = true := by
            have := head_dropWhile_false (fun d => !isWS d) hd
            simpa using this
          have hd2_len : d2.length + 1 ≤ r.length := by
            have h2 : (r.dropWhile fun d => !isWS d).length ≤ r.length :=
              len_dropWhile_le _ r
            rw [hd] at h2
            simpa using h2
          rw [collapseWS_cons_ws d2 he]
          have hw_len : (d2.dropWhile fun c => isWS c).length ≤ n := by
            have h1 := len_dropWhile_le (fun c => isWS c) d2
            omega
          have hsp : splitWS (e :: d2) = splitWS (d2.dropWhile fun c => isWS c) := by
            rw [splitWS_cons_ws d2 he, splitWS_dropWhile_ws d2]
          rcases hw : d2.dropWhile (fun c => isWS c) with _ | ⟨f, w2⟩
          · rw [show collapseWS [] = [] from rfl, rstrip_append_ws _ (by decide),
              rstrip_all_neg ht, hsp, hw, show splitWS ([] : List Char) = [] from rfl,
              joinT_single]
          · have hf : ¬ isWS f = true := by
              have := head_dropWhile_false (fun c => isWS c) hw
              simp_all
            have hlstrip : lstrip (collapseWS (f :: w2)) = collapseWS (f :: w2) := by
              rw [collapseWS_cons_neg w2 hf, lstrip_cons_neg _ hf]
            have hstrip_eq : rstrip (collapseWS (f :: w2)) =
                strip (collapseWS (f :: w2)) := by
              show _ = rstrip (lstrip _)
              rw [hlstrip]
            have hih : strip (collapseWS (f :: w2)) = joinT (splitWS (f :: w2)) := by
              have := ih (d2.dropWhile fun c => isWS c) hw_len
              rwa [hw] at this
            have hne : rstrip (collapseWS (f :: w2)) ≠ [] := by
              rw [collapseWS_cons_neg w2 hf, rstrip_cons_neg _ hf]
              simp
            have hsplit_ne : splitWS (f :: w2) ≠ [] := by
              rw [splitWS_cons_neg w2 hf]
              simp
            rw [show ((r.takeWhile fun d => !isWS d) ++ ' ' :: collapseWS (f :: w2)) =
                (((r.takeWhile fun d => !isWS d) ++ [' ']) ++ collapseWS (f :: w2)) from by
              rw [List.append_assoc]
              rfl]
            rw [rstrip_append_of_ne _ hne, hstrip_eq, hih, hsp, hw,
              joinT_cons_of_ne _ _ hsplit_ne]
            rw [List.append_assoc]
            rfl

theorem strip_collapse (z : List Char) : strip (collapseWS z) = joinT (splitWS z) :=
  strip_collapse_aux z.length z (Nat.le_refl _)

/-! ### Tokens of a split, and joining them back -/

/-! ### Tokens of a split, and joining them back -/

theorem toLower_space : Char.toLower ' ' = ' ' := by decide

theorem map_toLower_joinT (ts : List (List Char)) :
    (joinT ts).map Char.toLower = joinT (ts.map (List.map Char.toLower)) := by
  induction ts with
  | nil => rfl
  | cons w ws ih =>
    cases ws with
    | nil => rfl
    | cons v ws2 =>
      rw [joinT_cons_of_ne w (v :: ws2) (by simp), List.map_append, List.map_cons,
        ih, toLower_space]
      conv_rhs => rw [List.map_cons]
      rw [joinT_cons_of_ne (List.map Char.toLower w)
        (List.map (List.map Char.toLower) (v :: ws2)) (by simp)]

theorem splitOnWS_mem :
    ∀ {z t : List Char}, t ∈ splitOnWS z → ∀ c ∈ t, isWS c = false ∧ c ∈ z := by
  intro z
  induction z with
  | nil =>
    intro t ht c hc
    simp only [splitOnWS, List.mem_singleton] at ht
    subst ht
    simp at hc
  | cons a r ih =>
    intro t ht c hc
    by_cases h : isWS a = true
    · simp only [splitOnWS, h, if_true, List.mem_cons] at ht
      rcases ht with rfl | ht
      · simp at hc
      · have := ih ht c hc
        exact ⟨this.1, List.mem_cons_of_mem _ this.2⟩
    · simp only [splitOnWS, h, if_false] at ht
      rcases hsp : splitOnWS r with _ | ⟨w, ws⟩
      · exact absurd hsp (splitOnWS_ne_nil r)
      · rw [hsp] at ht
        change t ∈ (a :: w) :: ws at ht
        simp only [List.mem_cons] at ht
        rcases ht with rfl | ht
        · rcases List.mem_cons.mp hc with hca | hc2
          · subst hca
            refine ⟨by simpa using h, List.mem_cons_self _ _⟩
          · have hw : w ∈ splitOnWS r := by
              rw [hsp]
              exact List.mem_cons_self _ _
            have := ih hw c hc2
            exact ⟨this.1, List.mem_cons_of_mem _ this.2⟩
        · have hws : t ∈ splitOnWS r := by
            rw [hsp]
            exact List.mem_cons_of_mem _ ht
          have := ih hws c hc
          exact ⟨this.1, List.mem_cons_of_mem _ this.2⟩

theorem splitWS_mem {z t : List Char} (h : t ∈ splitWS z) :
    t ≠ [] ∧ ∀ c ∈ t, isWS c = false ∧ c ∈ z := by
  have h2 := List.mem_filter.mp h
  refine ⟨?_, fun c hc => splitOnWS_mem h2.1 c hc⟩
  have := h2.2
  simpa [List.isEmpty_iff] using this

theorem takeWhile_append_of_all {p : Char → Bool} {u : List Char}
    (h : ∀ x ∈ u, p x = true) (v : List Char) :
    (u ++ v).takeWhile p = u ++ v.takeWhile p := by
  induction u with
  | nil => rfl
  | cons a u ih =>
    rw [List.cons_append, List.takeWhile_cons, if_pos (h a (by simp)),
      ih fun x hx => h x (by simp [hx])]
    rfl

theorem dropWhile_append_of_all {p : Char → Bool} {u : List Char}
    (h : ∀ x ∈ u, p x = true) (v : List Char) :
    (u ++ v).dropWhile p = v.dropWhile p := by
  induction u with
  | nil => rfl
  | cons a u ih =>
    rw [List.cons_append, List.dropWhile_cons, if_pos (h a (by simp))]
    exact ih fun x hx => h x (by simp [hx])

theorem splitWS_token_append {w : List Char} (rest : List Char) (hne : w ≠ [])
    (hws : ∀ c ∈ w, isWS c = false) :
    splitWS (w ++ ' ' :: rest) = w :: splitWS rest := by
  rcases w with _ | ⟨f, w2⟩
  · exact absurd rfl hne
  · have hf : ¬ isWS f = true := by simp [hws f (by simp)]
    have hall : ∀ x ∈ w2, (!isWS x) = true := by
      intro x hx
      simp [hws x (by simp [hx])]
    rw [List.cons_append, splitWS_cons_neg _ hf,
      takeWhile_append_of_all hall, dropWhile_append_of_all hall]
    rw [show (' ' :: rest).takeWhile (fun d => !isWS d) = [] from by
      rw [List.takeWhile_cons, if_neg (by decide)]]
    rw [show (' ' :: rest).dropWhile (fun d => !isWS d) = ' ' :: rest from by
      rw [List.dropWhile_cons, if_neg (by decide)]]
    rw [splitWS_cons_ws rest (by decide), List.append_nil]

theorem splitWS_single_token {w : List Char} (hne : w ≠ [])
    (hws : ∀ c ∈ w, isWS c = false) :
    splitWS w = [w] := by
  rcases w with _ | ⟨f, w2⟩
  · exact absurd rfl hne
  · have hf : ¬ isWS f = true := by simp [hws f (by simp)]
    have hall : ∀ x ∈ w2, (!isWS x) = true := by
      intro x hx
      simp [hws x (by simp [hx])]
    rw [splitWS_cons_neg _ hf, takeWhile_all hall, dropWhile_all hall]
    rfl

theorem splitWS_joinT {ts : List (List Char)}
    (h : ∀ t ∈ ts, t ≠ [] ∧ ∀ c ∈ t, isWS c = false) :
    splitWS (joinT ts) = ts := by
  induction ts with
  | nil => rfl
  | cons w ws ih =>
    cases ws with
    | nil =>
      rw [joinT_single]
      exact splitWS_single_token (h w (by simp)).1 (h w (by simp)).2
    | cons v ws2 =>
      rw [joinT_cons_of_ne w (v :: ws2) (by simp),
        splitWS_token_append _ (h w (by simp)).1 (h w (by simp)).2,
        ih fun t ht => h t (by simp [ht])]

/-! ### Normalization: refinement and idempotence -/

theorem isPunct_space (rc : Bool) : isPunct rc ' ' = false := by
  cases rc <;> decide

theorem mem_foldPunct_not_punct {rc : Bool} {l : List Char} {d : Char}
    (h : d ∈ foldPunct rc l) : isPunct rc d = false := by
  rcases List.mem_map.mp h with ⟨c0, _, hc0⟩
  by_cases hp : isPunct rc c0 = true
  · rw [← hc0]
    simp [hp, isPunct_space]
  · rw [← hc0]
    simp only [Bool.not_eq_true] at hp
    simp [hp]

theorem foldPunct_id {rc : Bool} {l : List Char} (h : ∀ c ∈ l, isPunct rc c = false) :
    foldPunct rc l = l := by
  induction l with
  | nil => rfl
  | cons c r ih =>
    simp only [foldPunct, List.map_cons]
    rw [if_neg (by simp [h c (by simp)])]
    have := ih fun x hx => h x (by simp [hx])
    simp only [foldPunct] at this
    rw [this]

theorem mem_joinT {ts : List (List Char)} {c : Char} (h : c ∈ joinT ts) :
    c = ' ' ∨ ∃ t ∈ ts, c ∈ t := by
  induction ts with
  | nil => simp [joinT_nil] at h
  | cons w ws ih =>
    cases ws with
    | nil =>
      right
      exact ⟨w, by simp, by simpa [joinT_single] using h⟩
    | cons v ws2 =>
      rw [joinT_cons_of_ne w (v :: ws2) (by simp)] at h
      rcases List.mem_append.mp h with h1 | h2
      · right
        exact ⟨w, by simp, h1⟩
      · rcases List.mem_cons.mp h2 with rfl | h3
        · left
          rfl
        · rcases ih h3 with h4 | ⟨t, ht, hc⟩
          · left
            exact h4
          · right
            exact ⟨t, by simp [ht], hc⟩

theorem normSpec_no_punct {l : List Char} {rc : Bool} :
    ∀ c ∈ normSpec l rc, isPunct rc c = false := by
  intro c hc
  rcases mem_joinT hc with rfl | ⟨t, ht, hct⟩
  · exact isPunct_space rc
  · rcases List.mem_map.mp ht with ⟨t0, ht0, rfl⟩
    rcases List.mem_map.mp hct with ⟨d, hd, rfl⟩
    have h0 := (splitWS_mem ht0).2 d hd
    rw [isPunct_toLower]
    exact mem_foldPunct_not_punct h0.2

theorem normSpec_tokens (l : List Char) (rc : Bool) :
    splitWS (normSpec l rc) = (splitWS (foldPunct rc l)).map (List.map Char.toLower) := by
  apply splitWS_joinT
  intro t ht
  rcases List.mem_map.mp ht with ⟨t0, ht0, rfl⟩
  have h0 := splitWS_mem ht0
  constructor
  · simp [h0.1]
  · intro c hcm
    rcases List.mem_map.mp hcm with ⟨d, hd, rfl⟩
    rw [isWS_toLower]
    exact (h0.2 d hd).1

theorem normSpec_idem (l : List Char) (rc : Bool) :
    normSpec (normSpec l rc) rc = normSpec l rc := by
  show joinT ((splitWS (foldPunct rc (normSpec l rc))).map (List.map Char.toLower)) = _
  rw [foldPunct_id normSpec_no_punct, normSpec_tokens, List.map_map]
  have hcomp : (List.map Char.toLower ∘ List.map Char.toLower) = List.map Char.toLower := by
    funext t
    simp only [Function.comp_apply, List.map_map]
    exact List.map_congr_left fun d _ => by
      simp only [Function.comp_apply]
      exact toLower_toLower d
  rw [hcomp]
  rfl

theorem normList_eq_normSpec (l : List Char) (rc : Bool) : normList l rc = normSpec l rc := by
  show (strip (collapseWS (foldPunct rc l))).map Char.toLower = _
  rw [strip_collapse, map_toLower_joinT]
  rfl

theorem normalize_text_idem (s : String) (rc : Bool) :
    normalize_text (normalize_text s rc) rc = normalize_text s rc := by
  show String.mk (normList (String.mk (normList s.data rc)).data rc) =
    String.mk (normList s.data rc)
  rw [show (String.mk (normList s.data rc)).data = normList s.data rc from rfl]
  rw [normList_eq_normSpec, normList_eq_normSpec, normSpec_idem]

/-! ### Case-invariance of normalization and classification -/

theorem foldPunct_map_toLower (rc : Bool) (l : List Char) :
    foldPunct rc (l.map Char.toLower) = (foldPunct rc l).map Char.toLower := by
  simp only [foldPunct, List.map_map]
  apply List.map_congr_left
  intro c _
  simp only [Function.comp_apply]
  by_cases hp : isPunct rc c = true
  · rw [if_pos (by rw [isPunct_toLower]; exact hp), if_pos hp, toLower_space]
  · rw [if_neg (by rw [isPunct_toLower]; exact hp), if_neg hp]

theorem splitOnWS_map_toLower (l : List Char) :
    splitOnWS (l.map Char.toLower) = (splitOnWS l).map (List.map Char.toLower) := by
  induction l with
  | nil => rfl
  | cons c r ih =>
    by_cases h : isWS c = true
    · simp only [List.map_cons, splitOnWS]
      rw [if_pos (by rw [isWS_toLower]; exact h), if_pos h, ih]
      rfl
    · simp only [List.map_cons, splitOnWS]
      rw [if_neg (by rw [isWS_toLower]; exact h), if_neg h, ih]
      rcases hsp : splitOnWS r with _ | ⟨w, ws⟩
      · exact absurd hsp (splitOnWS_ne_nil r)
      · rfl

theorem isEmpty_map_toLower (w : List Char) :
    (w.map Char.toLower).isEmpty = w.isEmpty := by
  cases w <;> rfl

theorem filter_map_toLower (xs : List (List Char)) :
    (xs.map (List.map Char.toLower)).filter (fun w => !w.isEmpty) =
      (xs.filter fun w => !w.isEmpty).map (List.map Char.toLower) := by
  induction xs with
  | nil => rfl
  | cons w ws ih =>
    simp only [List.map_cons, List.filter_cons, isEmpty_map_toLower]
    by_cases hw : w.isEmpty = true
    · simp only [hw, Bool.not_true, Bool.false_eq_true, if_false]
      exact ih
    · simp only [Bool.not_eq_true] at hw
      simp only [hw, Bool.not_false, if_true, List.map_cons]
      rw [ih]

theorem splitWS_map_toLower (l : List Char) :
    splitWS (l.map Char.toLower) = (splitWS l).map (List.map Char.toLower) := by
  show (splitOnWS (l.map Char.toLower)).filter _ = _
  rw [splitOnWS_map_toLower, filter_map_toLower]
  rfl

theorem map_toLower_twice (t : List Char) :
    (t.map Char.toLower).map Char.toLower = t.map Char.toLower := by
  rw [List.map_map]
  exact List.map_congr_left fun d _ => by
    simp only [Function.comp_apply]
    exact toLower_toLower d

theorem normList_map_toLower (l : List Char) (rc : Bool) :
    normList (l.map Char.toLower) rc = normList l rc := by
  rw [normList_eq_normSpec, normList_eq_normSpec]
  show joinT ((splitWS (foldPunct rc (l.map Char.toLower))).map (List.map Char.toLower)) = _
  rw [foldPunct_map_toLower, splitWS_map_toLower, List.map_map]
  have hcomp : (List.map Char.toLower ∘ List.map Char.toLower) = List.map Char.toLower := by
    funext t
    exact map_toLower_twice t
  rw [hcomp]
  rfl

theorem contains_comma_map_toLower (l : List Char) :
    (l.map Char.toLower).contains ',' = l.contains ',' := by
  induction l with
  | nil => rfl
  | cons c r ih =>
    simp only [List.map_cons, List.contains_cons, ih]
    congr 1
    by_cases hc : c = ','
    · subst hc
      rw [show Char.toLower ',' = ',' from by decide]
    · have h2 : ¬ Char.toLower c = ',' := fun hh => hc (toLower_eq_comma_iff.mp hh)
      have hb1 : (',' == Char.toLower c) = false :=
        beq_eq_false_iff_ne.mpr fun hh => h2 hh.symm
      have hb2 : (',' == c) = false := beq_eq_false_iff_ne.mpr fun hh => hc hh.symm
      rw [hb1, hb2]

theorem normalize_congr_of_map_toLower {a b : String}
    (h : a.data.map Char.toLower = b.data.map Char.toLower) (rc : Bool) :
    normalize_text a rc = normalize_text b rc := by
  show String.mk (normList a.data rc) = String.mk (normList b.data rc)
  rw [← normList_map_toLower a.data rc, h, normList_map_toLower]

theorem is_enumerated_congr {a b : String}
    (h : a.data.map Char.toLower = b.data.map Char.toLower) :
    is_enumerated_answer a = is_enumerated_answer b := by
  show a.data.contains ',' = b.data.contains ','
  rw [← contains_comma_map_toLower a.data, h, contains_comma_map_toLower]

theorem evaluate_answer_congr {g g' c c' : String}
    (hg : g'.data.map Char.toLower = g.data.map Char.toLower)
    (hc : c'.data.map Char.toLower = c.data.map Char.toLower) :
    evaluate_answer g' c' = evaluate_answer g c := by
  show (if is_enumerated_answer g' then
      score_enumerated_answers
        (((((normalize_text g' false).data.splitOn ',').map strip).filter
            fun w => !w.isEmpty).map String.mk)
        (normalize_text c' true)
    else score_single_answer (normalize_text g' true) (normalize_text c' true)) =
    (if is_enumerated_answer g then
      score_enumerated_answers
        (((((normalize_text g false).data.splitOn ',').map strip).filter
            fun w => !w.isEmpty).map String.mk)
        (normalize_text c true)
    else score_single_answer (normalize_text g true) (normalize_text c true))
  rw [is_enumerated_congr hg, normalize_congr_of_map_toLower hg false,
    normalize_congr_of_map_toLower hg true, normalize_congr_of_map_toLower hc true]

/-! ### Edit-distance facts -/

theorem lev_nil_left (b : List Char) : lev [] b = b.length := by
  induction b with
  | nil => simp [lev]
  | cons y ys ih =>
    show levenshtein _ _ _ = _
    rw [levenshtein_nil_cons]
    simp only [Levenshtein.defaultCost_insert]
    show 1 + lev [] ys = _
    rw [ih]
    simp [Nat.add_comm]

theorem lev_nil_right (a : List Char) : lev a [] = a.length := by
  induction a with
  | nil => simp [lev]
  | cons x xs ih =>
    show levenshtein _ _ _ = _
    rw [levenshtein_cons_nil]
    simp only [Levenshtein.defaultCost_delete]
    show 1 + lev xs [] = _
    rw [ih]
    simp [Nat.add_comm]

theorem lev_cons_cons (x y : Char) (xs ys : List Char) :
    lev (x :: xs) (y :: ys) =
      min (1 + lev xs (y :: ys))
        (min (1 + lev (x :: xs) ys) ((if x = y then 0 else 1) + lev xs ys)) := by
  show levenshtein _ _ _ = _
  rw [levenshtein_cons_cons]
  simp only [Levenshtein.defaultCost_insert, Levenshtein.defaultCost_delete,
    Levenshtein.defaultCost_substitute]
  rfl

theorem lev_self (a : List Char) : lev a a = 0 := by
  induction a with
  | nil => simp [lev]
  | cons x xs ih =>
    rw [lev_cons_cons, if_pos rfl, ih]
    simp

theorem lev_comm (a b : List Char) : lev a b = lev b a := by
  induction a generalizing b with
  | nil => rw [lev_nil_left, lev_nil_right]
  | cons x xs ihx =>
    induction b with
    | nil => rw [lev_nil_left, lev_nil_right]
    | cons y ys ihy =>
      rw [lev_cons_cons, lev_cons_cons, ihx (y :: ys), ihy, ihx ys]
      by_cases hxy : x = y
      · rw [if_pos hxy, if_pos hxy.symm]
        omega
      · rw [if_neg hxy, if_neg fun hh => hxy hh.symm]
        omega

/-! ### Evaluating the scorer -/

theorem score_single_answer_eq (a u : String) :
    score_single_answer a u =
      if (split_into_chunks u (splitWS a.data).length).isEmpty then
        some ((lev a.data u.data : Nat) : ℚ)
      else if a.length = 0 then none
      else some (1 - ((min (listMin ((split_into_chunks u (splitWS a.data).length).map
          fun chunk => lev a.data chunk.data)) a.length : Nat) : ℚ) / (a.length : ℚ)) :=
  rfl

theorem split_into_chunks_self_tokens {x : String}
    (hjoin : joinT (splitWS x.data) = x.data) :
    split_into_chunks x (splitWS x.data).length = [x] := by
  show (List.range ((splitWS x.data).length + 1 - (splitWS x.data).length)).map _ = [x]
  rw [show (splitWS x.data).length + 1 - (splitWS x.data).length = 1 from by omega,
    show List.range 1 = [0] from rfl, List.map_cons, List.map_nil, List.drop_zero,
    List.take_length, hjoin]

theorem score_single_self_of_tokens {x : String}
    (hjoin : joinT (splitWS x.data) = x.data) (hlen : x.length ≠ 0) :
    score_single_answer x x = some 1 := by
  rw [score_single_answer_eq, split_into_chunks_self_tokens hjoin]
  rw [if_neg (by simp)]
  rw [if_neg hlen]
  rw [List.map_cons, List.map_nil]
  rw [show listMin [lev x.data x.data] = 0 from by rw [lev_self]; rfl]
  rw [Nat.zero_min]
  norm_num

/-! ### When the scorer returns a value -/

theorem string_eq_empty_of_length {s : String} (h : s.length = 0) : s = "" := by
  cases s with
  | mk d =>
    have hd : d = [] := List.length_eq_zero.mp h
    subst hd
    rfl

theorem score_single_empty_gold (u : String) : score_single_answer "" u = none := by
  rw [score_single_answer_eq]
  have hch : ¬ (split_into_chunks u (splitWS ("" : String).data).length).isEmpty = true := by
    show ¬ ((List.range ((splitWS u.data).length + 1 -
      (splitWS ("" : String).data).length)).map _).isEmpty = true
    rw [show (splitWS ("" : String).data).length = 0 from rfl]
    simp [List.isEmpty_iff]
  rw [if_neg hch, if_pos (show ("" : String).length = 0 from rfl)]

theorem score_single_isSome {a u : String} (ha : ¬ a.length = 0) :
    (score_single_answer a u).isSome = true := by
  rw [score_single_answer_eq]
  by_cases hch : (split_into_chunks u (splitWS a.data).length).isEmpty = true
  · rw [if_pos hch]
    rfl
  · rw [if_neg hch, if_neg ha]
    rfl

theorem foldlM_scores_isSome {items : List String} {u : String}
    (h : ∀ a ∈ items, ¬ a.length = 0) :
    ∀ acc : ℚ, (items.foldlM
      (fun acc ans => (score_single_answer ans u).map fun d => acc + d) acc).isSome = true := by
  induction items with
  | nil =>
    intro acc
    rfl
  | cons i rest ih =>
    intro acc
    rw [List.foldlM_cons]
    have hi : (score_single_answer i u).isSome = true :=
      score_single_isSome (h i (by simp))
    rcases Option.isSome_iff_exists.mp hi with ⟨v, hv⟩
    rw [hv]
    simp only [Option.map_some', Option.some_bind]
    exact ih (fun a hA => h a (by simp [hA])) (acc + v)

theorem score_enumerated_isSome {items : List String} {u : String}
    (h : ∀ a ∈ items, ¬ a.length = 0) :
    (score_enumerated_answers items u).isSome = true := by
  show (if items.isEmpty then some 0 else _).isSome = true
  split
  · rfl
  · rcases Option.isSome_iff_exists.mp (foldlM_scores_isSome h (0 : ℚ)) with ⟨v, hv⟩
    rw [hv]
    rfl

theorem evaluate_answer_isSome_iff (g c : String) :
    (evaluate_answer g c).isSome = true ↔
      (is_enumerated_answer g = true ∨ normalize_text g true ≠ "") := by
  by_cases he : is_enumerated_answer g = true
  · have heval : evaluate_answer g c =
        score_enumerated_answers
          (((((normalize_text g false).data.splitOn ',').map strip).filter
              fun w => !w.isEmpty).map String.mk)
          (normalize_text c true) := by
      show (if is_enumerated_answer g then _ else _) = _
      rw [if_pos he]
    have hitems : ∀ a ∈ ((((normalize_text g false).data.splitOn ',').map strip).filter
        fun w => !w.isEmpty).map String.mk, ¬ a.length = 0 := by
      intro a ha
      rcases List.mem_map.mp ha with ⟨w, hw, rfl⟩
      have hwne := (List.mem_filter.mp hw).2
      show ¬ w.length = 0
      intro h0
      rw [List.length_eq_zero.mp h0] at hwne
      simp at hwne
    exact ⟨fun _ => Or.inl he, fun _ => by rw [heval]; exact score_enumerated_isSome hitems⟩
  · have heval : evaluate_answer g c =
        score_single_answer (normalize_text g true) (normalize_text c true) := by
      show (if is_enumerated_answer g then _ else _) = _
      rw [if_neg he]
    rw [heval]
    constructor
    · intro hs
      right
      intro hempty
      rw [hempty, score_single_empty_gold] at hs
      simp at hs
    · rintro (habs | hne)
      · exact absurd habs he
      · exact score_single_isSome fun h0 => hne (string_eq_empty_of_length h0)

/-! ### The enumerated scorer as a mean -/

/-- The list of per-item single scores (spec §4.5): `none` as soon as one
item raises. -/
def singleScores (items : List String) (u : String) : Option (List ℚ) :=
  match items with
  | [] => some []
  | a :: rest =>
    (score_single_answer a u).bind fun s =>
      (singleScores rest u).bind fun ss => some (s :: ss)

theorem foldlM_eq_scores_sum (items : List String) (u : String) :
    ∀ acc : ℚ, items.foldlM
        (fun acc ans => (score_single_answer ans u).map fun d => acc + d) acc
      = (singleScores items u).map fun ss => acc + ss.sum := by
  induction items with
  | nil =>
    intro acc
    show some acc = (some ([] : List ℚ)).map fun ss => acc + ss.sum
    simp
  | cons i rest ih =>
    intro acc
    rw [List.foldlM_cons]
    show ((score_single_answer i u).map fun d => acc + d).bind
        (fun init => rest.foldlM
          (fun acc ans => (score_single_answer ans u).map fun d => acc + d) init) =
      ((score_single_answer i u).bind fun s =>
        (singleScores rest u).bind fun ss => some (s :: ss)).map fun ss => acc + ss.sum
    rcases hscore : score_single_answer i u with _ | v
    · rfl
    · show rest.foldlM (fun acc ans => (score_single_answer ans u).map fun d => acc + d)
          (acc + v)
        = ((singleScores rest u).bind fun ss => some (v :: ss)).map fun ss => acc + ss.sum
      rw [ih (acc + v)]
      rcases hrest : singleScores rest u with _ | ss
      · rfl
      · show some (acc + v + ss.sum) = some (acc + (v :: ss).sum)
        rw [List.sum_cons]
        congr 1
        ring

theorem score_enumerated_eq_mean (items : List String) (u : String) :
    score_enumerated_answers items u =
      (singleScores items u).map fun ss => ss.sum / (items.length : ℚ) := by
  show (if items.isEmpty then some 0 else _) = _
  by_cases hemp : items.isEmpty = true
  · rw [if_pos hemp]
    have hnil : items = [] := by simpa [List.isEmpty_iff] using hemp
    subst hnil
    show some 0 = (some ([] : List ℚ)).map fun ss => ss.sum / ((0 : Nat) : ℚ)
    simp
  · rw [if_neg hemp, foldlM_eq_scores_sum items u 0, Option.map_map]
    congr 1
    funext ss
    simp [Function.comp]

theorem score_enumerated_singleton (a : String) (u : String) :
    score_enumerated_answers [a] u = score_single_answer a u := by
  rw [score_enumerated_eq_mean]
  rcases hs : score_single_answer a u with _ | v
  · show ((score_single_answer a u).bind _).map _ = _
    rw [hs]
    rfl
  · show ((score_single_answer a u).bind _).map _ = _
    rw [hs]
    show some ((v :: []).sum / ((1 : Nat) : ℚ)) = some v
    simp

/-! ### Chunk extraction: count and contents -/

theorem split_into_chunks_length (text : String) (k : Nat) :
    (split_into_chunks text k).length = (splitWS text.data).length + 1 - k := by
  show ((List.range _).map _).length = _
  rw [List.length_map, List.length_range]

theorem split_into_chunks_get (text : String) (k i : Nat)
    (hi : i < (split_into_chunks text k).length) :
    (split_into_chunks text k).get ⟨i, hi⟩ =
      String.mk (joinT (((splitWS text.data).drop i).take k)) := by
  show ((List.range _).map _).get _ = _
  rw [List.get_eq_getElem, List.getElem_map, List.getElem_range]

/-! ### Supporting facts for whitespace-only inputs -/

theorem isWS_not_punct {c : Char} (rc : Bool) (h : isWS c = true) :
    isPunct rc c = false := by
  have h1 := isWS_iff.mp h
  have h2 : ¬ isPunct rc c = true := by
    rw [isPunct_iff]
    omega
  simpa using h2

theorem splitWS_all_ws {l : List Char} (h : ∀ c ∈ l, isWS c = true) : splitWS l = [] := by
  induction l with
  | nil => rfl
  | cons c r ih =>
    rw [splitWS_cons_ws r (h c (by simp))]
    exact ih fun x hx => h x (by simp [hx])

theorem normalize_ws_only {s : String} (rc : Bool) (h : ∀ c ∈ s.data, isWS c = true) :
    normalize_text s rc = "" := by
  show String.mk (normList s.data rc) = ""
  rw [normList_eq_normSpec]
  show String.mk (joinT ((splitWS (foldPunct rc s.data)).map (List.map Char.toLower))) = ""
  rw [foldPunct_id fun c hc => isWS_not_punct rc (h c hc), splitWS_all_ws h]
  rfl

/-! ### The claims -/

/-- C1, counterexample: at the raw gold mention `""` (whose normalization is
empty) and candidate `"anything"`, `evaluate_answer` does not return `0.0`;
it raises a `ZeroDivisionError` (modelled by `none`), because
`score_single_answer` divides by `max_dist = len("") = 0` with no guard. -/
theorem C1_counterexample :
    evaluate_answer "" "anything" = none ∧ evaluate_answer "" "anything" ≠ some 0 := by
  refine ⟨?_, ?_⟩ <;> decide

/-- C1, amended: `evaluate_answer` returns a value exactly when the gold
mention is classified enumerated or its comma-removing normalization is
non-empty; when a single-type gold normalizes to the empty string the call
fails with a division-by-zero (`none`) instead of returning `0.0`.  No other
well-formed input makes any scoring function fail. -/
theorem C1_eval_answer_totality (g c : String) :
    (evaluate_answer g c).isSome = true ↔
      (is_enumerated_answer g = true ∨ normalize_text g true ≠ "") :=
  evaluate_answer_isSome_iff g c

/-- C2: the code point for this claim.  On gold `"a b"` (reached from the raw
mention `"a-b"`) and candidate `"x"`, the candidate has fewer tokens than the
gold, and `score_single_answer` returns the raw edit distance `3` instead of
the normalized `1 - min(3, 3)/3 = 0.0` the claim states. -/
theorem C2_short_candidate_raw_distance :
    score_single_answer "a b" "x" = some 3 ∧ evaluate_answer "a-b" "x" = some 3 ∧
      1 - ((min 3 3 : Nat) : ℚ) / 3 = 0 := by
  refine ⟨by decide, by decide, by norm_num⟩

/-- C3: the code point for this claim.  `evaluate_answer "Paris" ""` takes the
no-chunk fallback and returns the raw distance `5`, which lies outside
`[0, 1]` (the spec's scenario 3 expects `0.0`). -/
theorem C3_score_out_of_range :
    evaluate_answer "Paris" "" = some 5 ∧ ¬ ((5 : ℚ) ≤ 1) := by
  refine ⟨by decide, by norm_num⟩

/-- C4: classification looks for a literal comma in the raw gold mention;
enumerated mentions are normalized keeping commas, split on `','`, stripped,
with empty items discarded, and scored against the comma-stripped normalized
candidate; single mentions normalize both sides removing commas; and
`evaluate_answer "," "anything" = 0.0` (EmptyEnumeratedList). -/
theorem C4_dispatch (g c : String) :
    (is_enumerated_answer g = true ↔ ',' ∈ g.data) ∧
    evaluate_answer g c =
      (if is_enumerated_answer g = true then
        score_enumerated_answers
          (((((normalize_text g false).data.splitOn ',').map strip).filter
              fun w => !w.isEmpty).map String.mk)
          (normalize_text c true)
      else score_single_answer (normalize_text g true) (normalize_text c true)) ∧
    evaluate_answer "," "anything" = some 0 := by
  refine ⟨?_, rfl, by decide⟩
  show g.data.contains ',' = true ↔ ',' ∈ g.data
  exact List.elem_iff

/-- C5: the enumerated scorer returns `0.0` on an empty item list, otherwise
the arithmetic mean of the single scores of all items against the same full
candidate; a one-item list reduces to the single scorer. -/
theorem C5_enumerated_mean :
    (∀ (items : List String) (u : String),
        score_enumerated_answers items u =
          (singleScores items u).map fun ss => ss.sum / (items.length : ℚ)) ∧
    (∀ u : String, score_enumerated_answers [] u = some 0) ∧
    (∀ (a u : String), score_enumerated_answers [a] u = score_single_answer a u) :=
  ⟨score_enumerated_eq_mean, fun _ => rfl, score_enumerated_singleton⟩

/-- C6: normalization is idempotent for either value of `remove_comma`. -/
theorem C6_normalize_idempotent (s : String) (rc : Bool) :
    normalize_text (normalize_text s rc) rc = normalize_text s rc :=
  normalize_text_idem s rc

/-- C7: `normalize_text` folds the punctuation class to spaces, lowercases,
collapses whitespace runs to single spaces and trims the ends — equivalently,
it is the lowercased whitespace tokens of the punctuation-folded text joined
by single spaces — and whitespace-only input yields the empty string. -/
theorem C7_normalize_characterization :
    (∀ (s : String) (rc : Bool), (normalize_text s rc).data = normSpec s.data rc) ∧
    (∀ (s : String) (rc : Bool), (∀ c ∈ s.data, isWS c = true) →
      normalize_text s rc = "") :=
  ⟨fun s rc => normList_eq_normSpec s.data rc, fun _ rc h => normalize_ws_only rc h⟩

/-- C7, witness: the whitespace-only input `"  \t "` normalizes to `""`. -/
theorem C7_witness :
    (∀ c ∈ ("  \t " : String).data, isWS c = true) ∧
      normalize_text "  \t " true = "" :=
  ⟨by decide, C7_normalize_characterization.2 "  \t " true (by decide)⟩

/-- C8: for window size `k ≥ 1`, `split_into_chunks` returns
`max(0, n - k + 1)` chunks for an `n`-token text, empty exactly when `n < k`,
and the `i`-th chunk is the join of tokens `i .. i+k-1` by single spaces. -/
theorem C8_chunks (text : String) (k : Nat) (_hk : 1 ≤ k) :
    (((split_into_chunks text k).length : Int) =
      max 0 (((splitWS text.data).length : Int) - k + 1)) ∧
    (split_into_chunks text k = [] ↔ (splitWS text.data).length < k) ∧
    (∀ i (hi : i < (split_into_chunks text k).length),
      (split_into_chunks text k).get ⟨i, hi⟩ =
        String.mk (joinT (((splitWS text.data).drop i).take k))) := by
  refine ⟨?_, ?_, fun i hi => split_into_chunks_get text k i hi⟩
  · rw [split_into_chunks_length]
    omega
  · rw [← List.length_eq_zero, split_into_chunks_length]
    omega

/-- C8, witness: on the three-token text `"a b c"` with window 2 there are
`max(0, 3-2+1) = 2` chunks, `["a b", "b c"]`. -/
theorem C8_witness :
    (1 ≤ 2) ∧
    ((split_into_chunks "a b c" 2).length : Int) =
      max 0 (((splitWS ("a b c" : String).data).length : Int) - 2 + 1) ∧
    split_into_chunks "a b c" 2 = ["a b", "b c"] :=
  ⟨by decide, (C8_chunks "a b c" 2 (by decide)).1, by decide⟩

/-- C9: the edit-distance primitive is symmetric, zero on equal strings, and
equal to the other string's length against the empty string; consequently a
non-empty normalized gold scored against itself gets score `1.0`. -/
theorem C9_edit_distance_props :
    (∀ a b : String, lev a.data b.data = lev b.data a.data) ∧
    (∀ a : String, lev a.data a.data = 0) ∧
    (∀ a : String, lev a.data [] = a.length ∧ lev [] a.data = a.length) ∧
    (∀ (s : String) (rc : Bool), normalize_text s rc ≠ "" →
      score_single_answer (normalize_text s rc) (normalize_text s rc) = some 1) := by
  refine ⟨fun a b => lev_comm _ _, fun a => lev_self _,
    fun a => ⟨lev_nil_right _, lev_nil_left _⟩, ?_⟩
  intro s rc hne
  apply score_single_self_of_tokens
  · have hdata : (normalize_text s rc).data = normSpec s.data rc :=
      normList_eq_normSpec s.data rc
    rw [hdata, normSpec_tokens]
    rfl
  · intro h0
    exact hne (string_eq_empty_of_length h0)

/-- C9, witness: the normalized form of `"Old Man"` is non-empty and scores
`1.0` against itself. -/
theorem C9_witness :
    normalize_text "Old Man" true ≠ "" ∧
      score_single_answer (normalize_text "Old Man" true) (normalize_text "Old Man" true) =
        some 1 :=
  ⟨by decide, C9_edit_distance_props.2.2.2 "Old Man" true (by decide)⟩

/-- C10: `evaluate_answer` is invariant under letter-case changes of both
inputs: if two golds and two candidates agree character-wise after
lowercasing, the scores coincide. -/
theorem C10_case_invariance (g c g2 c2 : String)
    (hg : g2.data.map Char.toLower = g.data.map Char.toLower)
    (hc : c2.data.map Char.toLower = c.data.map Char.toLower) :
    evaluate_answer g2 c2 = evaluate_answer g c :=
  evaluate_answer_congr hg hc

/-- C10, witness: `"OLD MAN"` / `"The Castle"` against their lowercase forms. -/
theorem C10_witness :
    ("OLD MAN" : String).data.map Char.toLower =
        ("old man" : String).data.map Char.toLower ∧
      ("The Castle" : String).data.map Char.toLower =
        ("the castle" : String).data.map Char.toLower ∧
      evaluate_answer "OLD MAN" "The Castle" = evaluate_answer "old man" "the castle" :=
  ⟨by decide, by decide,
    C10_case_invariance "old man" "the castle" "OLD MAN" "The Castle"
      (by decide) (by decide)⟩
